import Mathlib

/-!
# Verification of the FernetCypher GUI core (`src/main.py`)

Shallow embedding of the key-management / encrypt / decrypt core of the
program.  The GUI event loop is excluded (as in the spec); the embedded
operations are:

* `FernetCypher` (class with `_key` and `_status` slots) and its methods
  `generate_key`, `load_key`, `encrypt_message`, `decrypt_message`, `status`;
* the module-level helpers `load_message` and the output-filename
  derivation `stem + '_C' + suffix` / `stem + '_D' + suffix` used by the
  `-ENCRYPT_MESSAGE-` / `-DECRYPT_MESSAGE-` handlers.

The external `cryptography.fernet.Fernet` primitive is not part of this
repository; it is modelled from the spec (see the doc comments marked
`Modelled from the spec:`) as an idealized symmetric authenticated-encryption
scheme: encryption is injective, decryption with the right key inverts it,
and decryption fails closed on a wrong key or on any single-byte change of
the ciphertext.

Byte strings are `List Nat` with every element `< 256`; Python's
`sys.exit` is modelled by the `PyResult` type, which distinguishes a normal
return from process termination with an exit code.
-/

namespace FernetGui

/-- A byte string (each element is intended to be `< 256`). -/
abbrev Bytes := List Nat

/-- Check that every element of a byte string is an actual byte. -/
def validBytes (l : Bytes) : Bool := l.all (fun b => b < 256)

/-- The file system visible to the program: a map from path strings to the
raw byte content of the file, `none` when the file does not exist or is
unreadable. -/
abbrev FS := String → Option Bytes

/-- Text files, for `load_message` (whole-file text reads). -/
abbrev TextFS := String → Option String

/-- Result of running a Python call: either a normal return value or
process termination via `sys.exit` with the given code. -/
inductive PyResult (α : Type) where
  | ret (val : α)
  | exit (code : Int)
deriving DecidableEq

/- ## The external Fernet primitive (modelled from the spec) -/

/-- Fixed-width little-endian base-256 digits of a natural number:
`toBytes w n` is the `w`-byte encoding of `n % 256 ^ w`. -/
def toBytes : Nat → Nat → Bytes
  | 0, _ => []
  | w + 1, n => n % 256 :: toBytes w (n / 256)

/-- Value of a little-endian base-256 digit string. -/
def fromBytes : Bytes → Nat
  | [] => 0
  | b :: bs => b + 256 * fromBytes bs

/-- Length of a Fernet key in bytes: 44 (the url-safe base64 text of 32
random bytes, the fixed format required by the scheme). -/
def fernetKeyLen : Nat := 44

/-- Modelled from the spec: `Fernet.generate_key()` (external library,
not in this repository) "produces a fresh random key of the cipher's
required length".  The randomness source is modelled as a counter state:
each call consumes the state and returns the 44-byte encoding of it
together with the successor state, so distinct states give distinct keys. -/
def fernetGenerateKey (rng : Nat) : Bytes × Nat :=
  (toBytes fernetKeyLen rng, rng + 1)

/-- Modelled from the spec: key validation performed by the `Fernet(key)`
constructor (external library) — the key must have the scheme's fixed
format, modelled as: exactly 44 bytes, each an actual byte. -/
def validKeyB (k : Bytes) : Bool := k.length == fernetKeyLen && validBytes k

/-- Modelled from the spec: `Fernet(key).encrypt` (external library), an
idealized authenticated-encryption transform.  The ciphertext binds the
key and the message (playing the role of the HMAC tag) and ends with a
one-byte checksum so that any single-byte change is detected. -/
def fernetEncrypt (k m : Bytes) : Bytes :=
  let payload := k ++ m
  payload ++ [payload.sum % 256]

/-- Modelled from the spec: `Fernet(key).decrypt` (external library):
"the external scheme returns an authentication failure, not a
successful-but-wrong decryption".  Parses the idealized ciphertext,
recomputes the checksum and checks the key binding; returns `none`
(the `InvalidToken` exception) on any mismatch. -/
def fernetDecrypt (k c : Bytes) : Option Bytes :=
  if c.length < fernetKeyLen + 1 then none
  else
    let payload := c.take (c.length - 1)
    let chk := c.getD (c.length - 1) 0
    if payload.sum % 256 = chk ∧ payload.take fernetKeyLen = k then
      some (payload.drop fernetKeyLen)
    else none

/- ## The FernetCypher class (src/main.py, lines 28-112) -/

/-- State of a `FernetCypher` instance: the `_key` slot (`none` while the
slot is still unassigned — reading it then raises `AttributeError`) and
the `_status` slot.  The `_key_path` slot of the source is never assigned
anywhere in the program and is omitted. -/
structure FernetCypher where
  _key : Option Bytes
  _status : Bool
deriving DecidableEq

namespace FernetCypher

/-- `load_key` (src/main.py:61-72): reads the raw key bytes from the path
into `self._key`; on any exception it logs and calls `sys.exit(-1)`. -/
def load_key (fs : FS) (self : FernetCypher) (key_path : String) :
    PyResult FernetCypher :=
  match fs key_path with
  | some bs => .ret { self with _key := some bs }
  | none => .exit (-1)

/-- `__init__` (src/main.py:37-43): with a key path it calls `load_key`
(which may exit the process), otherwise it only logs; in either surviving
case it then sets `self._status = True`. -/
def init (fs : FS) (key_path : Option String) : PyResult FernetCypher :=
  match key_path with
  | some p =>
    match load_key fs { _key := none, _status := true } p with
    | .ret s => .ret { s with _status := true }
    | .exit c => .exit c
  | none => .ret { _key := none, _status := true }

/-- Writing raw bytes to a path (the `open(path, 'wb')` / `write` in
`generate_key`): the file system afterwards maps that path to exactly the
written bytes. -/
def writeFile (fs : FS) (p : String) (content : Bytes) : FS :=
  fun q => if q = p then some content else fs q

/-- `generate_key` (src/main.py:44-59): sets `self._key` to a freshly
generated key, then opens the path for writing and writes the key bytes;
returns `True` on success.  Any exception (modelled: the path is not
writable) is caught and logged and `False` is returned — note that
`self._key` has already been replaced by then.  Result:
`(return value, new instance state, new file system, new rng state)`. -/
def generate_key (writable : String → Bool) (fs : FS) (rng : Nat)
    (self : FernetCypher) (key_path : String) :
    Bool × FernetCypher × FS × Nat :=
  let r := fernetGenerateKey rng
  let self' : FernetCypher := { self with _key := some r.1 }
  if writable key_path then
    (true, self', writeFile fs key_path r.1, r.2)
  else
    (false, self', fs, r.2)

/-- Body of the `try:` block of `encrypt_message`: reading the unassigned
`_key` slot raises (`none`), `Fernet(self._key)` raises on an invalid key
(`none`), otherwise encryption succeeds. -/
def encryptTry (key : Option Bytes) (m : Bytes) : Option Bytes :=
  match key with
  | none => none
  | some k => if validKeyB k then some (fernetEncrypt k m) else none

/-- `encrypt_message` (src/main.py:74-90): returns the ciphertext, or on
any exception logs, sets `self._status = False` and returns `None`. -/
def encrypt_message (self : FernetCypher) (m : Bytes) :
    Option Bytes × FernetCypher :=
  match encryptTry self._key m with
  | some c => (some c, self)
  | none => (none, { self with _status := false })

/-- Body of the `try:` block of `decrypt_message`: reading the unassigned
`_key` slot raises (`none`), `Fernet(self._key)` raises on an invalid key
(`none`), and `decrypt` raises `InvalidToken` on authentication failure
(`fernetDecrypt _ _ = none`). -/
def decryptTry (key : Option Bytes) (c : Bytes) : Option Bytes :=
  match key with
  | none => none
  | some k => if validKeyB k then fernetDecrypt k c else none

/-- `decrypt_message` (src/main.py:92-108): returns the plaintext, or on
any exception logs, sets `self._status = False` and returns `None`. -/
def decrypt_message (self : FernetCypher) (c : Bytes) :
    Option Bytes × FernetCypher :=
  match decryptTry self._key c with
  | some m => (some m, self)
  | none => (none, { self with _status := false })

/-- The `status` property (src/main.py:110-112). -/
def status (self : FernetCypher) : Bool := self._status

end FernetCypher

/- ## Module-level file helpers (src/main.py, lines 115-131) -/

/-- `load_message` (src/main.py:115-121): returns the whole file content
as text; on any exception it logs and returns `None` (the `sys.exit(-1)`
in the handler is commented out) — it never terminates the process, which
is why every branch is a `PyResult.ret`. -/
def load_message (fs : TextFS) (message_path : String) :
    PyResult (Option String) :=
  match fs message_path with
  | some t => .ret (some t)
  | none => .ret none

/- ## Output filename derivation (src/main.py, lines 236-237 and 259-260) -/

/-- Index of the last `'.'` in a character list, if any. -/
def lastDotIdx : List Char → Option Nat
  | [] => none
  | c :: cs =>
    match lastDotIdx cs with
    | some i => some (i + 1)
    | none => if c = '.' then some 0 else none

/-- `pathlib.PurePath.suffix` for a single-component path: the part of the
name from its last dot on, empty when there is no dot, the only dot is
leading, or the dot is final. -/
def pathSuffix (name : String) : String :=
  match lastDotIdx name.toList with
  | some i =>
    if 0 < i ∧ i + 1 < name.toList.length then
      (name.toList.drop i).asString
    else ""
  | none => ""

/-- `pathlib.PurePath.stem` for a single-component path: the name without
its suffix. -/
def pathStem (name : String) : String :=
  match lastDotIdx name.toList with
  | some i =>
    if 0 < i ∧ i + 1 < name.toList.length then
      (name.toList.take i).asString
    else name
  | none => name

/-- Output filename of the `-ENCRYPT_MESSAGE-` handler
(src/main.py:236): `message_file_path.stem + '_C' + message_file_path.suffix`. -/
def encryptedName (name : String) : String :=
  pathStem name ++ "_C" ++ pathSuffix name

/-- Output filename of the `-DECRYPT_MESSAGE-` handler
(src/main.py:259): `message_file_path.stem + '_D' + message_file_path.suffix`. -/
def decryptedName (name : String) : String :=
  pathStem name ++ "_D" ++ pathSuffix name

/- ## Instance lifetime (for the status-flag invariant) -/

/-- One cipher operation on a `FernetCypher` instance, with the ambient
inputs (file system, rng, writability) packaged as data. -/
inductive Op where
  | enc (m : Bytes)
  | dec (c : Bytes)
  | gen (writable : String → Bool) (fs : FS) (rng : Nat) (p : String)
  | load (fs : FS) (p : String)

/-- The instance state after one operation.  A `load_key` that exits the
process ends the instance's lifetime; for the purpose of tracking the
`_status` slot the state is left unchanged in that case (it is never
read again). -/
def stepOp (s : FernetCypher) : Op → FernetCypher
  | .enc m => (s.encrypt_message m).2
  | .dec c => (s.decrypt_message c).2
  | .gen w fs rng p => (s.generate_key w fs rng p).2.1
  | .load fs p =>
    match s.load_key fs p with
    | .ret s' => s'
    | .exit _ => s

/-- The instance state after a sequence of operations. -/
def runOps (s : FernetCypher) (ops : List Op) : FernetCypher :=
  ops.foldl stepOp s

/- ## Helper lemmas about the Fernet model -/

theorem toBytes_length (w n : Nat) : (toBytes w n).length = w := by
  induction w generalizing n with
  | zero => rfl
  | succ w ih => simp [toBytes, ih]

theorem toBytes_mem_lt (w n : Nat) : ∀ b ∈ toBytes w n, b < 256 := by
  induction w generalizing n with
  | zero => intro b hb; simp [toBytes] at hb
  | succ w ih =>
    intro b hb
    simp only [toBytes, List.mem_cons] at hb
    rcases hb with h | h
    · subst h; exact Nat.mod_lt _ (by norm_num)
    · exact ih _ b h

theorem fromBytes_toBytes (w n : Nat) :
    fromBytes (toBytes w n) = n % 256 ^ w := by
  induction w generalizing n with
  | zero => simp [toBytes, fromBytes, Nat.mod_one]
  | succ w ih =>
    simp only [toBytes, fromBytes, ih]
    rw [pow_succ', Nat.mod_mul]

theorem toBytes_succ_ne (r : Nat) :
    toBytes fernetKeyLen r ≠ toBytes fernetKeyLen (r + 1) := by
  intro h
  have h1 := fromBytes_toBytes fernetKeyLen r
  have h2 := fromBytes_toBytes fernetKeyLen (r + 1)
  rw [h, h2] at h1
  have hmod : r ≡ r + 1 [MOD 256 ^ fernetKeyLen] := h1.symm
  have hdvd : 256 ^ fernetKeyLen ∣ 1 := by
    have := (Nat.modEq_iff_dvd' (Nat.le_succ r)).mp hmod
    simpa using this
  have hgt : 1 < 256 ^ fernetKeyLen :=
    Nat.one_lt_pow (by norm_num [fernetKeyLen]) (by norm_num)
  have hle : 256 ^ fernetKeyLen ≤ 1 := Nat.le_of_dvd (by norm_num) hdvd
  omega

theorem validKeyB_toBytes (n : Nat) :
    validKeyB (toBytes fernetKeyLen n) = true := by
  rw [validKeyB, Bool.and_eq_true, beq_iff_eq, toBytes_length]
  refine ⟨rfl, ?_⟩
  rw [validBytes, List.all_eq_true]
  intro b hb
  simpa using toBytes_mem_lt _ n b hb

/-- `fernetDecrypt` on a ciphertext split into payload and trailing
checksum byte. -/
theorem fernetDecrypt_concat (k p : Bytes) (s : Nat)
    (hp : fernetKeyLen ≤ p.length) :
    fernetDecrypt k (p ++ [s]) =
      if p.sum % 256 = s ∧ p.take fernetKeyLen = k then
        some (p.drop fernetKeyLen)
      else none := by
  have hlen : (p ++ [s]).length = p.length + 1 := by simp
  rw [fernetDecrypt, hlen, if_neg (by omega)]
  have h1 : p.length + 1 - 1 = p.length := by omega
  have hget : (p ++ [s]).getD p.length 0 = s := by
    rw [List.getD_append_right p [s] 0 p.length le_rfl]
    simp
  rw [h1, List.take_left, hget]

theorem fernetDecrypt_fernetEncrypt (k m : Bytes)
    (hk : k.length = fernetKeyLen) :
    fernetDecrypt k (fernetEncrypt k m) = some m := by
  rw [fernetEncrypt]
  have hlen : fernetKeyLen ≤ (k ++ m).length := by simp [hk]
  rw [fernetDecrypt_concat k (k ++ m) _ hlen]
  rw [if_pos ⟨rfl, List.take_left' hk⟩, List.drop_left' hk]

theorem fernetDecrypt_wrong_key (k k' m : Bytes)
    (hk : k.length = fernetKeyLen) (hne : k' ≠ k) :
    fernetDecrypt k' (fernetEncrypt k m) = none := by
  rw [fernetEncrypt]
  have hlen : fernetKeyLen ≤ (k ++ m).length := by simp [hk]
  rw [fernetDecrypt_concat k' (k ++ m) _ hlen]
  rw [if_neg]
  intro hand
  exact hne ((List.take_left' hk) ▸ hand.2.symm)

/-- Replacing one entry of a list changes its sum by the difference. -/
theorem sum_set_getD (l : Bytes) (i v : Nat) (h : i < l.length) :
    (l.set i v).sum + l.getD i 0 = l.sum + v := by
  induction l generalizing i with
  | nil => simp at h
  | cons a t ih =>
    cases i with
    | zero => simp [List.set]; omega
    | succ n =>
      have h' : n < t.length := by simpa using h
      simp only [List.set, List.sum_cons, List.getD_cons_succ]
      have := ih n h'
      omega

theorem getD_lt_of_validBytes (l : Bytes) (i : Nat) (h : i < l.length)
    (hv : validBytes l = true) : l.getD i 0 < 256 := by
  rw [List.getD_eq_getElem l 0 h]
  rw [validBytes, List.all_eq_true] at hv
  simpa using hv _ (List.getElem_mem h)

/-- A single changed byte is caught by the checksum: decryption of the
altered ciphertext fails for every key. -/
theorem fernetDecrypt_tamper (k m : Bytes) (i v : Nat)
    (hk : validKeyB k = true) (hm : validBytes m = true)
    (hi : i < (fernetEncrypt k m).length) (hv : v < 256)
    (hne : v ≠ (fernetEncrypt k m).getD i 0) :
    ∀ k' : Bytes, fernetDecrypt k' ((fernetEncrypt k m).set i v) = none := by
  intro k'
  rw [validKeyB, Bool.and_eq_true, beq_iff_eq] at hk
  obtain ⟨hklen, hkval⟩ := hk
  have hpval : validBytes (k ++ m) = true := by
    rw [validBytes, List.all_eq_true]
    intro b hb
    rcases List.mem_append.mp hb with h | h
    · rw [validBytes, List.all_eq_true] at hkval; exact hkval b h
    · rw [validBytes, List.all_eq_true] at hm; exact hm b h
  have hplen : fernetKeyLen ≤ (k ++ m).length := by simp [hklen]
  have hclen : (fernetEncrypt k m).length = (k ++ m).length + 1 := by
    simp [fernetEncrypt]
    omega
  rcases Nat.lt_or_ge i (k ++ m).length with hcase | hcase
  · -- the changed byte is in the payload: the checksum no longer matches
    have hset : (fernetEncrypt k m).set i v =
        (k ++ m).set i v ++ [(k ++ m).sum % 256] := by
      rw [fernetEncrypt]
      exact List.set_append_left i v hcase
    have hgd : (fernetEncrypt k m).getD i 0 = (k ++ m).getD i 0 := by
      rw [fernetEncrypt]
      exact List.getD_append (k ++ m) _ 0 i hcase
    rw [hset, fernetDecrypt_concat _ _ _ (by simpa using hplen), if_neg]
    intro hand
    have hsum := sum_set_getD (k ++ m) i v hcase
    have hb : (k ++ m).getD i 0 < 256 := getD_lt_of_validBytes _ i hcase hpval
    have hne' : v ≠ (k ++ m).getD i 0 := hgd ▸ hne
    have hcontra := hand.1
    omega
  · -- the changed byte is the checksum byte itself
    have hieq : i = (k ++ m).length := by omega
    have hset : (fernetEncrypt k m).set i v = (k ++ m) ++ [v] := by
      rw [fernetEncrypt, List.set_append_right i v hcase]
      congr 1
      rw [hieq, Nat.sub_self]
      rfl
    have hgd : (fernetEncrypt k m).getD i 0 = (k ++ m).sum % 256 := by
      rw [fernetEncrypt, hieq,
        List.getD_append_right (k ++ m) _ 0 _ le_rfl]
      simp
    rw [hset, fernetDecrypt_concat _ _ _ hplen, if_neg]
    intro hand
    exact hne (hand.1.symm.trans hgd.symm)

/-- Every operation leaves the `_status` slot `true` only if it was
already `true` before: no operation ever writes `True` into it. -/
theorem stepOp_status_mono (s : FernetCypher) (op : Op) :
    (stepOp s op)._status = true → s._status = true := by
  cases op with
  | enc m =>
    cases h : FernetCypher.encryptTry s._key m <;>
      simp [stepOp, FernetCypher.encrypt_message, h]
  | dec c =>
    cases h : FernetCypher.decryptTry s._key c <;>
      simp [stepOp, FernetCypher.decrypt_message, h]
  | gen w fs rng p =>
    cases hw : w p <;> simp [stepOp, FernetCypher.generate_key, hw]
  | load fs p =>
    cases h : fs p <;> simp [stepOp, FernetCypher.load_key, h]

/- ## The claims -/

/-- C1: for every plaintext `m` and every instance whose key was just
produced by `generate_key` (any rng state `r`, any path, writable or
not), `encrypt_message` succeeds and leaves the instance unchanged, and
`decrypt_message` of the resulting ciphertext with the same key succeeds
and returns exactly `m`. -/
theorem round_trip_correct (w : String → Bool) (fs : FS) (r : Nat)
    (s0 : FernetCypher) (p : String) (m : Bytes) :
    ∃ c : Bytes,
      ((s0.generate_key w fs r p).2.1).encrypt_message m
        = (some c, (s0.generate_key w fs r p).2.1) ∧
      ((s0.generate_key w fs r p).2.1).decrypt_message c
        = (some m, (s0.generate_key w fs r p).2.1) := by
  have hs : (s0.generate_key w fs r p).2.1
      = { s0 with _key := some (toBytes fernetKeyLen r) } := by
    cases hw : w p <;>
      simp [FernetCypher.generate_key, fernetGenerateKey, hw]
  rw [hs]
  refine ⟨fernetEncrypt (toBytes fernetKeyLen r) m, ?_, ?_⟩
  · simp [FernetCypher.encrypt_message, FernetCypher.encryptTry,
      validKeyB_toBytes]
  · simp [FernetCypher.decrypt_message, FernetCypher.decryptTry,
      validKeyB_toBytes,
      fernetDecrypt_fernetEncrypt _ _ (toBytes_length fernetKeyLen r)]

/-- C3: `load_key` on a path that does not exist or is unreadable
(`fs p = none`) terminates the process via `sys.exit(-1)`, a nonzero
exit status, instead of returning to the caller. -/
theorem load_key_missing_exits (fs : FS) (s : FernetCypher) (p : String)
    (h : fs p = none) :
    s.load_key fs p = PyResult.exit (-1) ∧ (-1 : Int) ≠ 0 := by
  refine ⟨?_, by decide⟩
  rw [FernetCypher.load_key, h]

/-- Witness for `load_key_missing_exits` at a concrete empty file
system. -/
theorem load_key_missing_exits_witness :
    FernetCypher.load_key (fun _ => none) ⟨none, true⟩ "missing.key"
      = PyResult.exit (-1) ∧ (-1 : Int) ≠ 0 :=
  load_key_missing_exits (fun _ => none) ⟨none, true⟩ "missing.key" rfl

/-- C6: `load_message` never terminates the process (every branch is a
normal return); on a missing/unreadable path it returns `None`, and on a
readable path it returns the entire file content. -/
theorem load_message_total (fs : TextFS) (p : String) :
    (∃ o, load_message fs p = PyResult.ret o) ∧
    (fs p = none → load_message fs p = PyResult.ret none) ∧
    (∀ t, fs p = some t → load_message fs p = PyResult.ret (some t)) := by
  refine ⟨?_, ?_, ?_⟩
  · cases h : fs p with
    | none => exact ⟨none, by simp [load_message, h]⟩
    | some t => exact ⟨some t, by simp [load_message, h]⟩
  · intro h; simp [load_message, h]
  · intro t h; simp [load_message, h]

/-- Witness for `load_message_total` on a concrete missing and a concrete
readable file. -/
theorem load_message_total_witness :
    load_message (fun _ => none) "msg.txt" = PyResult.ret none ∧
    load_message (fun _ => some "hello") "msg.txt"
      = PyResult.ret (some "hello") :=
  ⟨(load_message_total (fun _ => none) "msg.txt").2.1 rfl,
   (load_message_total (fun _ => some "hello") "msg.txt").2.2 "hello" rfl⟩

/-- C8: the status flag is initialized to `True` by `__init__` (in both
constructor variants) and no operation ever resets it to `true`: after
any sequence of operations the flag reads `true` only if it was `true`
at the start, so once it is `false` it stays `false` for the rest of the
instance's lifetime. -/
theorem status_flag_monotone :
    (∀ fs : FS, FernetCypher.init fs none
        = PyResult.ret ⟨none, true⟩) ∧
    (∀ (s' : FernetCypher) (fs : FS) (p : String),
        FernetCypher.init fs (some p) = PyResult.ret s' →
        s'._status = true) ∧
    (∀ (s : FernetCypher) (ops : List Op),
        (runOps s ops)._status = true → s._status = true) := by
  refine ⟨fun fs => rfl, ?_, ?_⟩
  · intro s' fs p h
    cases hf : fs p with
    | none =>
      rw [FernetCypher.init, FernetCypher.load_key, hf] at h
      exact absurd h (by simp)
    | some bs =>
      rw [FernetCypher.init, FernetCypher.load_key, hf] at h
      simp only [PyResult.ret.injEq] at h
      rw [← h]
  · intro s ops
    induction ops generalizing s with
    | nil => simp [runOps]
    | cons op rest ih =>
      intro h
      exact stepOp_status_mono s op (ih (stepOp s op) h)

/-- Witness for `status_flag_monotone`: concrete constructor and a
concrete (empty) operation sequence. -/
theorem status_flag_monotone_witness :
    (⟨some [0], true⟩ : FernetCypher)._status = true ∧
    (⟨none, true⟩ : FernetCypher)._status = true :=
  ⟨status_flag_monotone.2.1 ⟨some [0], true⟩ (fun _ => some [0]) "k" rfl,
   status_flag_monotone.2.2 ⟨none, true⟩ [] rfl⟩

/-- C10: on an instance constructed without a key path (so the `_key`
slot is still unassigned), `encrypt_message` and `decrypt_message` catch
the `AttributeError` internally: they return `None` and set the status
flag to `false`, and by construction of the model they always return
normally (no exception reaches the caller). -/
theorem no_key_operations_safe (fs : FS) (m c : Bytes) :
    FernetCypher.init fs none = PyResult.ret ⟨none, true⟩ ∧
    FernetCypher.encrypt_message ⟨none, true⟩ m = (none, ⟨none, false⟩) ∧
    FernetCypher.decrypt_message ⟨none, true⟩ c = (none, ⟨none, false⟩) :=
  ⟨rfl, rfl, rfl⟩

/-- C2: decrypting `encrypt_message(K, P)` with a different key `K' ≠ K`
fails (returns `None` and sets the status flag to `false`), and decrypting
the ciphertext with any single byte changed fails the same way with any
key — never returning corrupted plaintext. -/
theorem tamper_detection (k k' m : Bytes) (st : Bool)
    (hk : validKeyB k = true) (hk' : validKeyB k' = true)
    (hm : validBytes m = true) :
    (k' ≠ k →
      FernetCypher.decrypt_message ⟨some k', st⟩ (fernetEncrypt k m)
        = (none, ⟨some k', false⟩)) ∧
    (∀ i v, i < (fernetEncrypt k m).length → v < 256 →
      v ≠ (fernetEncrypt k m).getD i 0 →
      ∀ k'' : Bytes, validKeyB k'' = true →
        FernetCypher.decrypt_message ⟨some k'', st⟩
            ((fernetEncrypt k m).set i v)
          = (none, ⟨some k'', false⟩)) := by
  constructor
  · intro hne
    have hklen : k.length = fernetKeyLen := by
      rw [validKeyB, Bool.and_eq_true, beq_iff_eq] at hk
      exact hk.1
    have hdec := fernetDecrypt_wrong_key k k' m hklen hne
    simp [FernetCypher.decrypt_message, FernetCypher.decryptTry, hk', hdec]
  · intro i v hi hv hne k'' hk''
    have hdec := fernetDecrypt_tamper k m i v hk hm hi hv hne k''
    simp [FernetCypher.decrypt_message, FernetCypher.decryptTry, hk'', hdec]

/-- Witness for `tamper_detection`: two concrete generated keys, a
concrete two-byte message, and a concrete flip of byte 0. -/
theorem tamper_detection_witness :
    FernetCypher.decrypt_message ⟨some (toBytes fernetKeyLen 1), true⟩
        (fernetEncrypt (toBytes fernetKeyLen 0) [104, 105])
      = (none, ⟨some (toBytes fernetKeyLen 1), false⟩) ∧
    FernetCypher.decrypt_message ⟨some (toBytes fernetKeyLen 0), true⟩
        ((fernetEncrypt (toBytes fernetKeyLen 0) [104, 105]).set 0 1)
      = (none, ⟨some (toBytes fernetKeyLen 0), false⟩) :=
  ⟨(tamper_detection (toBytes fernetKeyLen 0) (toBytes fernetKeyLen 1)
      [104, 105] true (by decide) (by decide) (by decide)).1 (by decide),
   (tamper_detection (toBytes fernetKeyLen 0) (toBytes fernetKeyLen 1)
      [104, 105] true (by decide) (by decide) (by decide)).2
     0 1 (by decide) (by decide) (by decide)
     (toBytes fernetKeyLen 0) (by decide)⟩

/-- The returned value of `encrypt_message` is the value of its `try:`
body. -/
theorem encrypt_message_fst (s : FernetCypher) (m : Bytes) :
    (s.encrypt_message m).1 = FernetCypher.encryptTry s._key m := by
  cases h : FernetCypher.encryptTry s._key m <;>
    simp [FernetCypher.encrypt_message, h]

/-- The returned value of `decrypt_message` is the value of its `try:`
body. -/
theorem decrypt_message_fst (s : FernetCypher) (c : Bytes) :
    (s.decrypt_message c).1 = FernetCypher.decryptTry s._key c := by
  cases h : FernetCypher.decryptTry s._key c <;>
    simp [FernetCypher.decrypt_message, h]

/-- `encrypt_message` leaves the state unchanged on success and only
clears the status flag on failure. -/
theorem encrypt_message_snd (s : FernetCypher) (m : Bytes) :
    (s.encrypt_message m).2 =
      if (FernetCypher.encryptTry s._key m).isSome then s
      else { s with _status := false } := by
  cases h : FernetCypher.encryptTry s._key m <;>
    simp [FernetCypher.encrypt_message, h]

/-- `decrypt_message` leaves the state unchanged on success and only
clears the status flag on failure. -/
theorem decrypt_message_snd (s : FernetCypher) (c : Bytes) :
    (s.decrypt_message c).2 =
      if (FernetCypher.decryptTry s._key c).isSome then s
      else { s with _status := false } := by
  cases h : FernetCypher.decryptTry s._key c <;>
    simp [FernetCypher.decrypt_message, h]

/-- C5, counterexample to the claim as stated: `decrypt_message` on a
ciphertext that fails authentication (here the empty string) DOES modify
instance state beyond reading the key — it sets the `_status` slot to
`false`. -/
theorem cipher_not_stateless_counterexample :
    FernetCypher.decrypt_message ⟨some (toBytes fernetKeyLen 0), true⟩ []
      = (none, ⟨some (toBytes fernetKeyLen 0), false⟩) ∧
    (⟨some (toBytes fernetKeyLen 0), false⟩ : FernetCypher)
      ≠ ⟨some (toBytes fernetKeyLen 0), true⟩ := by
  constructor
  · decide
  · decide

/-- C5 as amended: the results of `encrypt_message` and `decrypt_message`
are deterministic functions of the key and the message alone; the key
slot is never modified; on success the instance state is completely
unchanged; and on failure the only state change is setting the status
flag to `false`. -/
theorem cipher_pure_amended (s s' : FernetCypher) (m c : Bytes)
    (hkey : s._key = s'._key) :
    ((s.encrypt_message m).1 = (s'.encrypt_message m).1) ∧
    ((s.decrypt_message c).1 = (s'.decrypt_message c).1) ∧
    ((s.encrypt_message m).2._key = s._key) ∧
    ((s.decrypt_message c).2._key = s._key) ∧
    (∀ ct, (s.encrypt_message m).1 = some ct → (s.encrypt_message m).2 = s) ∧
    (∀ pt, (s.decrypt_message c).1 = some pt → (s.decrypt_message c).2 = s) ∧
    ((s.encrypt_message m).2 = s ∨
      (s.encrypt_message m).2 = { s with _status := false }) ∧
    ((s.decrypt_message c).2 = s ∨
      (s.decrypt_message c).2 = { s with _status := false }) := by
  refine ⟨?_, ?_, ?_, ?_, ?_, ?_, ?_, ?_⟩
  · rw [encrypt_message_fst, encrypt_message_fst, hkey]
  · rw [decrypt_message_fst, decrypt_message_fst, hkey]
  · rw [encrypt_message_snd]; split <;> rfl
  · rw [decrypt_message_snd]; split <;> rfl
  · intro ct h
    rw [encrypt_message_fst] at h
    simp [encrypt_message_snd, h]
  · intro pt h
    rw [decrypt_message_fst] at h
    simp [decrypt_message_snd, h]
  · rw [encrypt_message_snd]; split
    · exact Or.inl rfl
    · exact Or.inr rfl
  · rw [decrypt_message_snd]; split
    · exact Or.inl rfl
    · exact Or.inr rfl

/-- Witness for `cipher_pure_amended` at a concrete instance: the key
slot survives a failed decryption. -/
theorem cipher_pure_amended_witness :
    ((⟨some (toBytes fernetKeyLen 0), true⟩ : FernetCypher).decrypt_message
        []).2._key = some (toBytes fernetKeyLen 0) :=
  (cipher_pure_amended ⟨some (toBytes fernetKeyLen 0), true⟩
    ⟨some (toBytes fernetKeyLen 0), true⟩ [1] [] rfl).2.2.2.1

/-- C7: `generate_key` always produces the key of the scheme's fixed
length (44 bytes) and stores it in `self._key`; when the path is writable
it returns `True` and the file system afterwards maps the path to exactly
the key bytes; when the path is unwritable it returns `False` (a return
value, never an exception — the function is total); and the key of the
immediately following call (rng state `rng + 1`) differs from this one. -/
theorem generate_key_contract (w : String → Bool) (fs : FS) (rng : Nat)
    (s : FernetCypher) (p : String) :
    ((s.generate_key w fs rng p).2.1._key
        = some (toBytes fernetKeyLen rng)) ∧
    (toBytes fernetKeyLen rng).length = fernetKeyLen ∧
    (w p = true →
      s.generate_key w fs rng p
        = (true, { s with _key := some (toBytes fernetKeyLen rng) },
            FernetCypher.writeFile fs p (toBytes fernetKeyLen rng),
            rng + 1) ∧
      FernetCypher.writeFile fs p (toBytes fernetKeyLen rng) p
        = some (toBytes fernetKeyLen rng)) ∧
    (w p = false →
      s.generate_key w fs rng p
        = (false, { s with _key := some (toBytes fernetKeyLen rng) },
            fs, rng + 1)) ∧
    toBytes fernetKeyLen rng ≠ toBytes fernetKeyLen (rng + 1) := by
  refine ⟨?_, toBytes_length _ _, ?_, ?_, toBytes_succ_ne rng⟩
  · cases hw : w p <;>
      simp [FernetCypher.generate_key, fernetGenerateKey, hw]
  · intro hw
    refine ⟨?_, ?_⟩
    · simp [FernetCypher.generate_key, fernetGenerateKey, hw]
    · simp [FernetCypher.writeFile]
  · intro hw
    simp [FernetCypher.generate_key, fernetGenerateKey, hw]

/-- Witness for `generate_key_contract`: a concrete writable and a
concrete unwritable path. -/
theorem generate_key_contract_witness :
    FernetCypher.generate_key (fun _ => true) (fun _ => none) 0
        ⟨none, true⟩ "default.key"
      = (true, ⟨some (toBytes fernetKeyLen 0), true⟩,
          FernetCypher.writeFile (fun _ => none) "default.key"
            (toBytes fernetKeyLen 0), 1) ∧
    FernetCypher.generate_key (fun _ => false) (fun _ => none) 0
        ⟨none, true⟩ "default.key"
      = (false, ⟨some (toBytes fernetKeyLen 0), true⟩,
          (fun _ => none), 1) :=
  ⟨((generate_key_contract (fun _ => true) (fun _ => none) 0
      ⟨none, true⟩ "default.key").2.2.1 rfl).1,
   (generate_key_contract (fun _ => false) (fun _ => none) 0
      ⟨none, true⟩ "default.key").2.2.2.1 rfl⟩

/-- C9: when the key file cannot be written, `generate_key` reports
failure (`False`), but the instance's in-memory `_key` slot has already
been replaced by the freshly generated key — the pre-call key is not
restored on error. -/
theorem generate_key_not_atomic (w : String → Bool) (fs : FS) (rng : Nat)
    (s : FernetCypher) (p : String) (hw : w p = false) :
    (s.generate_key w fs rng p).1 = false ∧
    (s.generate_key w fs rng p).2.1._key
      = some (toBytes fernetKeyLen rng) ∧
    (s._key ≠ some (toBytes fernetKeyLen rng) →
      (s.generate_key w fs rng p).2.1._key ≠ s._key) := by
  have h : s.generate_key w fs rng p
      = (false, { s with _key := some (toBytes fernetKeyLen rng) },
          fs, rng + 1) := by
    simp [FernetCypher.generate_key, fernetGenerateKey, hw]
  refine ⟨by rw [h], by rw [h], ?_⟩
  intro hne
  rw [h]
  exact fun heq => hne heq.symm

/-- Witness for `generate_key_not_atomic` at a concrete unwritable path:
the instance started with no key and ends holding the fresh key despite
the reported failure. -/
theorem generate_key_not_atomic_witness :
    (FernetCypher.generate_key (fun _ => false) (fun _ => none) 0
        ⟨none, true⟩ "k.key").1 = false ∧
    (FernetCypher.generate_key (fun _ => false) (fun _ => none) 0
        ⟨none, true⟩ "k.key").2.1._key
      ≠ (⟨none, true⟩ : FernetCypher)._key :=
  ⟨(generate_key_not_atomic (fun _ => false) (fun _ => none) 0
      ⟨none, true⟩ "k.key" rfl).1,
   (generate_key_not_atomic (fun _ => false) (fun _ => none) 0
      ⟨none, true⟩ "k.key" rfl).2.2 (by decide)⟩

/- ## Filename derivation lemmas -/

theorem lastDotIdx_eq_none (cs : List Char) (h : '.' ∉ cs) :
    lastDotIdx cs = none := by
  induction cs with
  | nil => rfl
  | cons c cs ih =>
    have h1 : lastDotIdx cs = none :=
      ih (fun hm => h (List.mem_cons_of_mem _ hm))
    simp only [lastDotIdx, h1]
    exact if_neg (fun hc => h (by rw [hc]; exact List.mem_cons_self _ _))

theorem lastDotIdx_append (n e : List Char) (he : '.' ∉ e) :
    lastDotIdx (n ++ '.' :: e) = some n.length := by
  induction n with
  | nil =>
    simp only [List.nil_append, lastDotIdx, lastDotIdx_eq_none e he]
    simp
  | cons c n ih =>
    simp only [List.cons_append, lastDotIdx, List.append_eq]
    rw [ih]
    simp

/-- On a filename of the form `n ++ "." ++ e` with `n` nonempty and `e`
a nonempty extension without dots, `pathlib`'s stem is `n` and suffix is
`"." ++ e`. -/
theorem stem_suffix_append (n e : String) (hn : n ≠ "") (he0 : e ≠ "")
    (he : '.' ∉ e.toList) :
    pathStem (n ++ "." ++ e) = n ∧ pathSuffix (n ++ "." ++ e) = "." ++ e := by
  have hdata : (n ++ "." ++ e).toList = n.toList ++ '.' :: e.toList := by
    simp [String.toList]
  have hidx : lastDotIdx (n ++ "." ++ e).toList = some n.toList.length := by
    rw [hdata]; exact lastDotIdx_append _ _ he
  have hn' : n.toList ≠ [] := fun hh =>
    hn (String.ext (by simpa [String.toList] using hh))
  have he' : e.toList ≠ [] := fun hh =>
    he0 (String.ext (by simpa [String.toList] using hh))
  have hnpos : 0 < n.toList.length := List.length_pos.mpr hn'
  have hepos : 0 < e.toList.length := List.length_pos.mpr he'
  have hlen : (n ++ "." ++ e).toList.length
      = n.toList.length + 1 + e.toList.length := by
    rw [hdata]; simp; omega
  have hcond : 0 < n.toList.length ∧
      n.toList.length + 1 < (n ++ "." ++ e).toList.length := by
    refine ⟨hnpos, ?_⟩
    rw [hlen]; omega
  constructor
  · rw [pathStem, hidx]
    simp only []
    rw [if_pos hcond, hdata, List.take_left, String.asString_toList]
  · rw [pathSuffix, hidx]
    simp only []
    rw [if_pos hcond, hdata, List.drop_left, List.asString_eq]
    simp [String.toList]

/-- C4: the output filename is derived by plain suffix injection with no
special-casing: for every `name.ext` (nonempty name, nonempty dot-free
extension) the `-ENCRYPT_MESSAGE-` handler writes to `name_C.ext` and the
`-DECRYPT_MESSAGE-` handler to `name_D.ext`; concretely, encrypting
`"note.txt"` targets `"note_C.txt"` and decrypting `"note_C.txt"`
targets `"note_C_D.txt"`. -/
theorem output_name_derivation (n e : String) (hn : n ≠ "") (he0 : e ≠ "")
    (he : '.' ∉ e.toList) :
    encryptedName (n ++ "." ++ e) = n ++ "_C." ++ e ∧
    decryptedName (n ++ "." ++ e) = n ++ "_D." ++ e ∧
    encryptedName "note.txt" = "note_C.txt" ∧
    decryptedName "note_C.txt" = "note_C_D.txt" := by
  obtain ⟨hs, hx⟩ := stem_suffix_append n e hn he0 he
  refine ⟨?_, ?_, by decide, by decide⟩
  · rw [encryptedName, hs, hx]
    apply String.ext
    simp
  · rw [decryptedName, hs, hx]
    apply String.ext
    simp

/-- Witness for `output_name_derivation` at the concrete name
`"note" ++ "." ++ "txt"`. -/
theorem output_name_derivation_witness :
    encryptedName ("note" ++ "." ++ "txt") = "note" ++ "_C." ++ "txt" ∧
    decryptedName ("note" ++ "." ++ "txt") = "note" ++ "_D." ++ "txt" :=
  ⟨(output_name_derivation "note" "txt" (by decide) (by decide)
      (by decide)).1,
   (output_name_derivation "note" "txt" (by decide) (by decide)
      (by decide)).2.1⟩

end FernetGui
